import Mathlib

/-!
Verification of the Huffman coding engine in
src/ibragimov.imil/F0/huffmanAlgorithm.cpp.

Strings (`std::string`) are modelled as `List Char`; `std::multimap<size_t,
char>` as a `List (Nat × Char)` kept ordered by key through `mmInsert`
(which, like `multimap::insert`, places an entry after all entries with a
key less than or equal to its own); `std::map<char, std::string>` as a
`List (Char × List Char)` kept ordered by key through `mapInsert` (which,
like `map::operator[]=`, replaces the entry of an existing key).
`size_t` weights are modelled as `Nat` (no arithmetic in the source comes
near overflow: weights are bounded by the input length).
-/

namespace ibragimov

/-- Node of the Huffman tree.  The class itself lives in huffmanNode.hpp,
which is outside the given sources; its shape is reconstructed from its uses
in huffmanAlgorithm.cpp and from the data model of the spec (§3): a tagged
variant Leaf(symbol, weight) / Internal(weight, left, right).  The source
constructs leaves as Node(char, weight) (line 87) and internal nodes as
Node(' ', weight, left, right) (line 95), so the internal variant also
carries the placeholder character; `pair.first` is the character and
`pair.second` the weight (lines 94, 114, 158). -/
inductive Node where
  | leaf (c : Char) (w : Nat)
  | internal (c : Char) (w : Nat) (left right : Node)
deriving DecidableEq, Repr

/-- Weight of a node: `node->pair.second` in the source. -/
def Node.weight : Node → Nat
  | .leaf _ w => w
  | .internal _ w _ _ => w

/-- Character of a node: `node->pair.first` in the source. -/
def Node.symbol : Node → Char
  | .leaf c _ => c
  | .internal c _ _ _ => c

/-- Whether both child pointers are null: `!current->left && !current->right`. -/
def Node.isLeaf : Node → Bool
  | .leaf _ _ => true
  | .internal _ _ _ _ => false

/-- The non-null children of a node, left first. -/
def Node.childrenOf : Node → List Node
  | .leaf _ _ => []
  | .internal _ _ l r => [l, r]

/-- Number of nodes in the tree (a measure used for the breadth-first
traversal's termination; not part of the source). -/
def Node.size : Node → Nat
  | .leaf _ _ => 1
  | .internal _ _ l r => 1 + l.size + r.size

/-- Weight consistency of the built tree: every internal node's weight is
the sum of its children's weights (leaves are trivially consistent). -/
def Node.consistentWeights : Node → Prop
  | .leaf _ _ => True
  | .internal _ w l r => w = l.weight + r.weight ∧ l.consistentWeights ∧ r.consistentWeights

/-- Total weight of a working collection of nodes. -/
def totalWeight (l : List Node) : Nat := (l.map Node.weight).sum

/-- Depth-first list of (depth, symbol) pairs of the leaves of a tree,
used to reason about the breadth-first collection up to permutation. -/
def leafDepthsD : Node → Nat → List (Nat × Char)
  | .leaf c _, d => [(d, c)]
  | .internal _ _ l r, d => leafDepthsD l (d + 1) ++ leafDepthsD r (d + 1)

/-- A string over the binary alphabet of the source's codes. -/
def IsBits (l : List Char) : Prop := ∀ c ∈ l, c = '0' ∨ c = '1'

/-- Numeric value of a code read as a big-endian binary numeral. -/
def val (code : List Char) : Nat :=
  code.foldl (fun a c => 2 * a + (if c = '1' then 1 else 0)) 0

/-- Kraft sum of a list of code lengths. -/
def kraftSum (lens : List Nat) : ℚ := (lens.map fun n => (1 / 2 : ℚ) ^ n).sum

/-- One codeword is a prefix of another. -/
def isPre (a b : List Char) : Prop := ∃ t, a ++ t = b

/-- Error raised by the modelled C++ code: `invalidArgument` is the
`std::invalid_argument` thrown by `replaceSubstring`, and `nonTermination`
marks inputs on which the source's replacement loop never terminates
(re-finding the pattern inside the just-inserted replacement forever). -/
inductive EncodeError where
  | invalidArgument
  | nonTermination
deriving DecidableEq, Repr

namespace detail

/-- Insertion into an ordered `std::multimap<size_t, char>`: the new entry
goes after every entry whose key is less than or equal to its own, so
entries with equal keys keep their insertion order. -/
def mmInsert (p : Nat × Char) : List (Nat × Char) → List (Nat × Char)
  | [] => [p]
  | q :: rest => if q.1 ≤ p.1 then q :: mmInsert p rest else p :: q :: rest

/-- Assignment `table[c] = v` on an ordered `std::map<char, std::string>`:
insert in key order, replacing the entry of an existing key. -/
def mapInsert (c : Char) (v : List Char) : List (Char × List Char) → List (Char × List Char)
  | [] => [(c, v)]
  | p :: rest =>
    if p.1 < c then p :: mapInsert c v rest
    else if p.1 = c then (c, v) :: rest
    else (c, v) :: p :: rest

/-- Insertion step of the sort model. -/
def insertSorted (c : Char) : List Char → List Char
  | [] => [c]
  | x :: xs => if x ≤ c then x :: insertSorted c xs else c :: x :: xs

/-- Model of `std::sort` on the copied text (line 71): any correct sort of a
character sequence produces the same list (the unique `≤`-sorted permutation),
so insertion sort is an exact model. -/
def sortChars (l : List Char) : List Char := l.foldr insertSorted []

/-- Tail of `std::unique_copy` (line 73): drop elements equal to the
previously kept one. -/
def ucGo (prev : Char) : List Char → List Char
  | [] => []
  | c :: rest => if c = prev then ucGo prev rest else c :: ucGo c rest

/-- `std::unique_copy` (line 73): remove consecutive duplicates. -/
def uniqueCopy : List Char → List Char
  | [] => []
  | c :: rest => c :: ucGo c rest

/-- `ibragimov::detail::createFrequencyTable` (lines 68-81): sort a copy of
the text, extract the alphabet with `unique_copy`, and insert
(count, symbol) pairs into a `multimap` keyed by count. -/
def createFrequencyTable (text : List Char) : List (Nat × Char) :=
  let copiedText := sortChars text
  let alphabet := uniqueCopy copiedText
  (alphabet.map fun c => (copiedText.count c, c)).foldl (fun t p => mmInsert p t) []

/-- `ibragimov::detail::isMinWeight` (lines 156-159): note the comparator is
`<=`, not `<`. -/
def isMinWeight (lhs rhs : Node) : Bool := decide (lhs.weight ≤ rhs.weight)

/-- The index scan of `std::min_element` (line 147) with the `isMinWeight`
comparator: `best` is the index of the current best element `bestNode`, `i`
the index of the head of the remaining list; the comparator being `<=`, the
best index is updated on every tie, so the scan returns the last index
attaining the minimum weight. -/
def minIdxGo (best : Nat) (bestNode : Node) (i : Nat) : List Node → Nat
  | [] => best
  | n :: rest =>
    if isMinWeight n bestNode then minIdxGo i n (i + 1) rest
    else minIdxGo best bestNode (i + 1) rest

/-- Index returned by `std::min_element(list.begin(), list.end(), isMinWeight)`,
`none` when the list is empty (iterator equal to `end()`). -/
def minIdx : List Node → Option Nat
  | [] => none
  | n :: rest => some (minIdxGo 0 n 1 rest)

/-- `ibragimov::detail::extractMinimum` (lines 145-155).  The source moves the
minimum element out (leaving a null `unique_ptr` in its slot) and then runs
`erase(remove(...), end)` comparing against that now-null slot, which removes
exactly the moved-from slot and keeps the order of the rest; the net effect
is returning the element at the min_element index and erasing that index. -/
def extractMinimum (l : List Node) : Option Node × List Node :=
  match minIdx l with
  | none => (none, l)
  | some i => (l.get? i, l.eraseIdx i)


/-- The merge loop of `ibragimov::detail::createHuffmanTree` (lines 89-96):
while more than one node remains, extract two minima and append an internal
node with their weight sum, first extracted as left child, second as right.
`fuel` is a structural bound on the number of iterations; every iteration
shortens the list by one, so any fuel at least the initial list length is
enough, and `createHuffmanTree` passes such a bound (the exhausted-fuel
branch is never reached).  The branches where an extraction yields no node
are likewise unreachable (the list has at least two elements there); the
source would dereference a null pointer, modelled by the empty list. -/
def huffLoop : Nat → List Node → List Node
  | 0, weights => weights
  | fuel + 1, weights =>
    if 1 < weights.length then
      match extractMinimum weights with
      | (some left, ws1) =>
        match extractMinimum ws1 with
        | (some right, ws2) =>
          huffLoop fuel (ws2 ++ [Node.internal ' ' (left.weight + right.weight) left right])
        | (none, _) => []
      | (none, _) => []
    else weights

/-- `ibragimov::detail::createHuffmanTree` (lines 82-98): build one leaf per
(weight, char) pair, run the merge loop, and return `weights.back()`.  On an
empty frequency table `back()` is called on an empty `std::list` — undefined
behaviour in C++ — modelled by `getLast?` returning `none`. -/
def createHuffmanTree (frequencyTable : List (Nat × Char)) : Option Node :=
  (huffLoop frequencyTable.length (frequencyTable.map fun p => Node.leaf p.2 p.1)).getLast?


/-- The breadth-first walk of `ibragimov::detail::createCodesLengthTable`
(lines 99-129), one level at a time: record (height, symbol) for every leaf
of the current level, then recurse on the concatenated children.  This is the
same processing order as the source's inner `while (numberOfNodes--)` loop
over a single queue.  `fuel` is a structural bound on the number of levels;
the total node count of the queue strictly decreases per level, so any fuel
at least that count is enough, and `createCodesLengthTable` passes such a
bound (the exhausted-fuel branch is never reached). -/
def bfs : Nat → List Node → Nat → List (Nat × Char)
  | _, [], _ => []
  | 0, _ :: _, _ => []
  | fuel + 1, n :: q, height =>
    ((n :: q).filterMap fun t => if t.isLeaf then some (height, t.symbol) else none)
      ++ bfs fuel ((n :: q).flatMap Node.childrenOf) (height + 1)

/-- `ibragimov::detail::createCodesLengthTable` (lines 99-129): breadth-first
traversal from the root at height 0, inserting (height, symbol) for each
leaf into a `multimap` keyed by the height. -/
def createCodesLengthTable (huffmanTree : Node) : List (Nat × Char) :=
  (bfs huffmanTree.size [huffmanTree] 0).foldl (fun t p => mmInsert p t) []

/-- `ibragimov::detail::flip` (lines 167-170). -/
def flip (c : Char) : Char := if c = '0' then '1' else '0'

/-- `ibragimov::detail::increment` (lines 161-166) seen from the right end of
the code: flip characters from the back up to and including the first '0'
(all of them when there is no '0'). -/
def incRev : List Char → List Char
  | [] => []
  | c :: rest => if c = '0' then flip c :: rest else flip c :: incRev rest

/-- `ibragimov::detail::increment` (lines 161-166). -/
def increment (code : List Char) : List Char := (incRev code.reverse).reverse

/-- Loop of `ibragimov::detail::createEncodingTable` (lines 136-141): for
each further (length, char) entry, increment the running code, pad it with
zeroes up to the new length, and store it under the char.  `prevLen` is
`std::prev(currentPair)->first`, the length of the previous entry. -/
def cetGo (table : List (Char × List Char)) (code : List Char) (prevLen : Nat) :
    List (Nat × Char) → List (Char × List Char)
  | [] => table
  | (len, ch) :: rest =>
    let code' := increment code ++ List.replicate (len - prevLen) '0'
    cetGo (mapInsert ch code' table) code' len rest

/-- `ibragimov::detail::createEncodingTable` (lines 130-143): the first entry
of the lengths table gets a code of that many '0' characters; each further
entry gets the incremented and zero-padded code.  On an empty lengths table
the source dereferences `cbegin()` of an empty `multimap` — undefined
behaviour — modelled as `none`. -/
def createEncodingTable (lengthsTable : List (Nat × Char)) : Option (List (Char × List Char)) :=
  match lengthsTable with
  | [] => none
  | (l0, c0) :: rest =>
    some (cetGo (mapInsert c0 (List.replicate l0 '0') []) (List.replicate l0 '0') l0 rest)

/-- Inner loop of `ibragimov::detail::replaceSubstring` (lines 178-183),
specialised to a single-character pattern, the only form in which the
program ever calls it (`encode` passes `std::string{pair.first}`): scan for
the character; on a hit splice in the replacement and continue searching
from the same position, i.e. from the start of the inserted text.  When
the replacement itself contains the pattern character, the source loop
re-finds the pattern inside the text it just inserted and never terminates;
this is modelled by `EncodeError.nonTermination`. -/
def replaceGo (toReplace : Char) (replaceWith : List Char) : List Char → Except EncodeError (List Char)
  | [] => .ok []
  | x :: rest =>
    if x = toReplace then
      if toReplace ∈ replaceWith then .error .nonTermination
      else (replaceGo toReplace replaceWith rest).map (fun r => replaceWith ++ r)
    else (replaceGo toReplace replaceWith rest).map (fun r => x :: r)

/-- `ibragimov::detail::replaceSubstring` (lines 172-184), with the pattern
specialised to one character (see `replaceGo`): empty subject or empty
replacement throw `std::invalid_argument` (a one-character pattern is never
empty). -/
def replaceSubstring (str : List Char) (toReplace : Char) (replaceWith : List Char) :
    Except EncodeError (List Char) :=
  if str = [] ∨ replaceWith = [] then .error .invalidArgument
  else replaceGo toReplace replaceWith str

end detail

/-- `ibragimov::createEncodingTable` (lines 32-37), the spec's
`buildEncodingTable`: frequency table → Huffman tree → code-length table →
encoding table. -/
def createEncodingTable (text : List Char) : Option (List (Char × List Char)) :=
  match detail.createHuffmanTree (detail.createFrequencyTable text) with
  | none => none
  | some tree => detail.createEncodingTable (detail.createCodesLengthTable tree)

/-- `ibragimov::encode` (lines 38-46): for each (char, code) pair of the
encoding map, in ascending key order, replace every occurrence of the char
in the working string by the code. -/
def encode (text : List Char) (encodings : List (Char × List Char)) :
    Except EncodeError (List Char) :=
  encodings.foldlM (fun s p => detail.replaceSubstring s p.1 p.2) text

/-- The inverted map `copiedEncodings` of `ibragimov::decode` (lines 49-53):
`copiedEncodings[pair.second] = pair.first` for each pair in ascending key
order, later assignments overwriting earlier ones. -/
def buildDecodingMap (encodings : List (Char × List Char)) : List Char → Option Char :=
  encodings.foldl (fun m p => fun k => if k = p.2 then some p.1 else m k) (fun _ => none)

/-- Bit loop of `ibragimov::decode` (lines 56-64): push the bit onto the
accumulator `code`; if the accumulator is now a key of the inverted map,
emit its character and clear the accumulator.  Returns the decoded text and
the final (possibly non-empty) accumulator. -/
def decodeGo (m : List Char → Option Char) :
    List Char → List Char → List Char → List Char × List Char
  | decoded, code, [] => (decoded, code)
  | decoded, code, bit :: rest =>
    match m (code ++ [bit]) with
    | some ch => decodeGo m (decoded ++ [ch]) [] rest
    | none => decodeGo m decoded (code ++ [bit]) rest

/-- `ibragimov::decode` (lines 47-66): run the bit loop and return the
decoded text, discarding whatever is left in the accumulator. -/
def decode (text : List Char) (encodings : List (Char × List Char)) : List Char :=
  (decodeGo (buildDecodingMap encodings) [] [] text).1


end ibragimov

open ibragimov (Node EncodeError)

namespace ibragimov.detail

theorem minIdxGo_cases (rest : List Node) :
    ∀ (b : Nat) (bn : Node) (i : Nat),
      minIdxGo b bn i rest = b ∨
        (i ≤ minIdxGo b bn i rest ∧ minIdxGo b bn i rest < i + rest.length) := by
  induction rest with
  | nil => intro b bn i; left; rfl
  | cons n rest ih =>
    intro b bn i
    by_cases h : isMinWeight n bn = true
    · rw [minIdxGo, if_pos h]
      rcases ih i n (i + 1) with h1 | ⟨h1, h2⟩
      · right; constructor
        · omega
        · simp only [List.length_cons]; omega
      · right; constructor
        · omega
        · simp only [List.length_cons]; omega
    · rw [minIdxGo, if_neg h]
      rcases ih b bn (i + 1) with h1 | ⟨h1, h2⟩
      · left; exact h1
      · right; constructor
        · omega
        · simp only [List.length_cons]; omega

theorem minIdx_lt_length (l : List Node) (hne : l ≠ []) :
    ∃ i, minIdx l = some i ∧ i < l.length := by
  match l with
  | [] => exact absurd rfl hne
  | n :: rest =>
    refine ⟨minIdxGo 0 n 1 rest, rfl, ?_⟩
    rcases minIdxGo_cases rest 0 n 1 with h | ⟨h1, h2⟩
    · simp [h]
    · simp only [List.length_cons]; omega

theorem extractMinimum_of_ne (l : List Node) (hne : l ≠ []) :
    ∃ n l', extractMinimum l = (some n, l') ∧ l'.length + 1 = l.length := by
  obtain ⟨i, hmi, hlt⟩ := minIdx_lt_length l hne
  refine ⟨l.get ⟨i, hlt⟩, l.eraseIdx i, ?_, ?_⟩
  · simp [extractMinimum, hmi, List.get?_eq_get hlt]
  · rw [List.length_eraseIdx]
    simp only [hlt, if_true]
    omega

theorem childrenOf_size (n : Node) :
    ((n.childrenOf).map Node.size).sum + 1 = n.size := by
  cases n with
  | leaf c w => simp [Node.childrenOf, Node.size]
  | internal c w l r =>
    simp only [Node.childrenOf, Node.size, List.map_cons, List.map_nil, List.sum_cons,
      List.sum_nil]
    omega

theorem flatMap_children_size (q : List Node) :
    ((q.flatMap Node.childrenOf).map Node.size).sum + q.length = (q.map Node.size).sum := by
  induction q with
  | nil => rfl
  | cons n q ih =>
    simp only [List.flatMap_cons, List.map_append, List.sum_append, List.map_cons,
      List.sum_cons, List.length_cons]
    have := childrenOf_size n
    omega

end ibragimov.detail

namespace ibragimov.detail

theorem map_sum_eraseIdx {α : Type} (f : α → Nat) :
    ∀ (l : List α) (i : Nat) (h : i < l.length),
      (l.map f).sum = f (l.get ⟨i, h⟩) + ((l.eraseIdx i).map f).sum := by
  intro l
  induction l with
  | nil => intro i h; simp at h
  | cons x xs ih =>
    intro i h
    cases i with
    | zero => simp [List.eraseIdx]
    | succ i =>
      simp only [List.length_cons] at h
      have hi : i < xs.length := by omega
      have := ih i hi
      simp only [List.map_cons, List.sum_cons, List.eraseIdx_cons_succ, List.get_cons_succ]
      rw [this]
      omega

theorem extractMinimum_parts {l : List Node} {n : Node} {l' : List Node}
    (he : extractMinimum l = (some n, l')) :
    ∃ (i : Nat) (h : i < l.length), n = l.get ⟨i, h⟩ ∧ l' = l.eraseIdx i := by
  cases hl : minIdx l with
  | none =>
    simp only [extractMinimum, hl] at he
    simp at he
  | some i =>
    simp only [extractMinimum, hl, Prod.mk.injEq] at he
    obtain ⟨h1, h2⟩ := he
    obtain ⟨hlt, hget⟩ := List.get?_eq_some.mp h1
    exact ⟨i, hlt, hget.symm, h2.symm⟩

theorem extractMinimum_sum {l : List Node} {n : Node} {l' : List Node}
    (he : extractMinimum l = (some n, l')) :
    ibragimov.totalWeight l = n.weight + ibragimov.totalWeight l' := by
  obtain ⟨i, hi, hn, hl'⟩ := extractMinimum_parts he
  rw [hn, hl']
  exact map_sum_eraseIdx Node.weight l i hi

theorem extractMinimum_mem {l : List Node} {n : Node} {l' : List Node}
    (he : extractMinimum l = (some n, l')) :
    n ∈ l ∧ ∀ x ∈ l', x ∈ l := by
  obtain ⟨i, hi, hn, hl'⟩ := extractMinimum_parts he
  constructor
  · rw [hn]; exact List.get_mem l i hi
  · rw [hl']; intro x hx; exact List.eraseIdx_subset l i hx

theorem huffLoop_spec :
    ∀ (fuel : Nat) (ws : List Node), ws ≠ [] → ws.length ≤ fuel + 1 →
      (huffLoop fuel ws).length = 1 ∧
      ibragimov.totalWeight (huffLoop fuel ws) = ibragimov.totalWeight ws ∧
      ((∀ n ∈ ws, n.consistentWeights) → ∀ n ∈ huffLoop fuel ws, n.consistentWeights) := by
  intro fuel
  induction fuel with
  | zero =>
    intro ws hne hlen
    have h1 : ws.length = 1 := by
      cases ws with
      | nil => exact absurd rfl hne
      | cons x xs => simp only [List.length_cons] at hlen ⊢; omega
    rw [huffLoop]
    exact ⟨h1, rfl, fun h => h⟩
  | succ fuel ih =>
    intro ws hne hlen
    by_cases h : 1 < ws.length
    · obtain ⟨n1, l1, he1, hl1⟩ := extractMinimum_of_ne ws hne
      have hl1ne : l1 ≠ [] := by
        intro hx; rw [hx] at hl1; simp at hl1; omega
      obtain ⟨n2, l2, he2, hl2⟩ := extractMinimum_of_ne l1 hl1ne
      have hstep : huffLoop (fuel + 1) ws
          = huffLoop fuel (l2 ++ [Node.internal ' ' (n1.weight + n2.weight) n1 n2]) := by
        simp only [huffLoop, if_pos h, he1, he2]
      have hsum1 := extractMinimum_sum he1
      have hsum2 := extractMinimum_sum he2
      have hmem1 := extractMinimum_mem he1
      have hmem2 := extractMinimum_mem he2
      have hnewne : (l2 ++ [Node.internal ' ' (n1.weight + n2.weight) n1 n2]) ≠ [] := by simp
      have hnewlen : (l2 ++ [Node.internal ' ' (n1.weight + n2.weight) n1 n2]).length ≤ fuel + 1 := by
        simp only [List.length_append, List.length_cons, List.length_nil]
        omega
      obtain ⟨q1, q2, q3⟩ := ih (l2 ++ [Node.internal ' ' (n1.weight + n2.weight) n1 n2]) hnewne hnewlen
      rw [hstep]
      refine ⟨q1, ?_, ?_⟩
      · rw [q2]
        simp only [ibragimov.totalWeight, List.map_append, List.sum_append, List.map_cons,
          List.map_nil, List.sum_cons, List.sum_nil, Node.weight] at hsum1 hsum2 ⊢
        omega
      · intro hcons
        apply q3
        intro n hn
        rcases List.mem_append.mp hn with hn | hn
        · exact hcons n (hmem1.2 n (hmem2.2 n hn))
        · have hn' : n = Node.internal ' ' (n1.weight + n2.weight) n1 n2 := by simpa using hn
          rw [hn']
          exact ⟨rfl, hcons n1 hmem1.1, hcons n2 (hmem1.2 n2 hmem2.1)⟩
    · have h1 : ws.length = 1 := by
        cases ws with
        | nil => exact absurd rfl hne
        | cons x xs => simp only [List.length_cons] at h ⊢; omega
      rw [huffLoop, if_neg h]
      exact ⟨h1, rfl, fun hh => hh⟩

end ibragimov.detail

namespace ibragimov

theorem decodeGo_acc (m : List Char → Option Char) :
    ∀ (bits decoded code : List Char),
      (decodeGo m decoded code bits).1 = decoded ++ (decodeGo m [] code bits).1 ∧
      (decodeGo m decoded code bits).2 = (decodeGo m [] code bits).2 := by
  intro bits
  induction bits with
  | nil => intro decoded code; simp [decodeGo]
  | cons bit rest ih =>
    intro decoded code
    simp only [decodeGo]
    cases hm : m (code ++ [bit]) with
    | some ch =>
      simp only [hm]
      refine ⟨?_, ?_⟩
      · rw [(ih (decoded ++ [ch]) []).1, (ih ([] ++ [ch]) []).1]
        simp
      · rw [(ih (decoded ++ [ch]) []).2, (ih ([] ++ [ch]) []).2]
    | none =>
      simp only [hm]
      exact ih decoded (code ++ [bit])

theorem decodeGo_tail_split (m : List Char → Option Char) :
    ∀ (bits code : List Char),
      (∃ k, k ≤ bits.length ∧
        (decodeGo m [] code bits).1 = (decodeGo m [] code (bits.take k)).1 ∧
        (decodeGo m [] code (bits.take k)).2 = [] ∧
        (decodeGo m [] code bits).2 = bits.drop k) ∨
      ((decodeGo m [] code bits).1 = [] ∧ (decodeGo m [] code bits).2 = code ++ bits) := by
  intro bits
  induction bits with
  | nil =>
    intro code
    right
    exact ⟨rfl, by simp [decodeGo]⟩
  | cons bit rest ih =>
    intro code
    cases hm : m (code ++ [bit]) with
    | some ch =>
      rcases ih [] with ⟨k', hk', h1, h2, h3⟩ | ⟨h1, h2⟩
      · left
        refine ⟨k' + 1, by simp only [List.length_cons]; omega, ?_, ?_, ?_⟩
        · simp only [List.take_succ_cons, decodeGo, hm]
          rw [(decodeGo_acc m rest ([] ++ [ch]) []).1,
            (decodeGo_acc m (rest.take k') ([] ++ [ch]) []).1, h1]
        · simp only [List.take_succ_cons, decodeGo, hm]
          rw [(decodeGo_acc m (rest.take k') ([] ++ [ch]) []).2, h2]
        · simp only [List.drop_succ_cons, decodeGo, hm]
          rw [(decodeGo_acc m rest ([] ++ [ch]) []).2, h3]
      · left
        refine ⟨1, by simp only [List.length_cons]; omega, ?_, ?_, ?_⟩
        · show (decodeGo m [] code (bit :: rest)).1
            = (decodeGo m [] code ((bit :: rest).take 1)).1
          simp only [List.take_succ_cons, List.take_zero, decodeGo, hm]
          rw [(decodeGo_acc m rest ([] ++ [ch]) []).1, h1]
          rfl
        · show (decodeGo m [] code ((bit :: rest).take 1)).2 = []
          simp only [List.take_succ_cons, List.take_zero, decodeGo, hm]
        · show (decodeGo m [] code (bit :: rest)).2 = (bit :: rest).drop 1
          simp only [List.drop_succ_cons, List.drop_zero, decodeGo, hm]
          rw [(decodeGo_acc m rest ([] ++ [ch]) []).2, h2]
          rfl
    | none =>
      rcases ih (code ++ [bit]) with ⟨k', hk', h1, h2, h3⟩ | ⟨h1, h2⟩
      · left
        refine ⟨k' + 1, by simp only [List.length_cons]; omega, ?_, ?_, ?_⟩
        · simp only [List.take_succ_cons, decodeGo, hm]
          exact h1
        · simp only [List.take_succ_cons, decodeGo, hm]
          exact h2
        · simp only [List.drop_succ_cons, decodeGo, hm]
          exact h3
      · right
        refine ⟨?_, ?_⟩
        · simp only [decodeGo, hm]
          exact h1
        · simp only [decodeGo, hm]
          rw [h2]
          simp

end ibragimov

namespace ibragimov.detail

theorem insertSorted_perm (c : Char) (l : List Char) :
    (insertSorted c l).Perm (c :: l) := by
  induction l with
  | nil => exact List.Perm.refl _
  | cons x xs ih =>
    rw [insertSorted]
    by_cases h : x ≤ c
    · rw [if_pos h]
      exact (ih.cons x).trans (List.Perm.swap c x xs)
    · rw [if_neg h]

theorem sortChars_perm (l : List Char) : (sortChars l).Perm l := by
  induction l with
  | nil => exact List.Perm.refl _
  | cons x xs ih =>
    exact (insertSorted_perm x (sortChars xs)).trans (ih.cons x)

theorem insertSorted_sorted (c : Char) (l : List Char) (h : List.Sorted (· ≤ ·) l) :
    List.Sorted (· ≤ ·) (insertSorted c l) := by
  induction l with
  | nil => simp [insertSorted]
  | cons x xs ih =>
    rw [List.sorted_cons] at h
    rw [insertSorted]
    by_cases hx : x ≤ c
    · rw [if_pos hx, List.sorted_cons]
      refine ⟨?_, ih h.2⟩
      intro y hy
      have hy' := (insertSorted_perm c xs).mem_iff.mp hy
      rcases List.mem_cons.mp hy' with hy2 | hy2
      · rw [hy2]; exact hx
      · exact h.1 y hy2
    · rw [if_neg hx, List.sorted_cons]
      have hcx : c ≤ x := le_of_not_le hx
      refine ⟨?_, by rw [List.sorted_cons]; exact h⟩
      intro y hy
      rcases List.mem_cons.mp hy with hy | hy
      · rw [hy]; exact hcx
      · exact hcx.trans (h.1 y hy)

theorem sortChars_sorted (l : List Char) : List.Sorted (· ≤ ·) (sortChars l) := by
  induction l with
  | nil => simp [sortChars]
  | cons x xs ih => exact insertSorted_sorted x (sortChars xs) ih

theorem sortChars_eq_of_perm {s s' : List Char} (h : s.Perm s') :
    sortChars s = sortChars s' := by
  exact List.eq_of_perm_of_sorted
    ((sortChars_perm s).trans (h.trans (sortChars_perm s').symm))
    (sortChars_sorted s) (sortChars_sorted s')

end ibragimov.detail

/-- Claim C9: createFrequencyTable is invariant under permutation of its
input: for permuted texts the sorted copy, hence the alphabet, the counts,
and the resulting (weight, symbol) multimap are identical. -/
theorem claimC9_frequency_table_permutation_invariant
    (s s' : List Char) (h : s.Perm s') :
    ibragimov.detail.createFrequencyTable s = ibragimov.detail.createFrequencyTable s' := by
  show (((ibragimov.detail.uniqueCopy (ibragimov.detail.sortChars s)).map
      fun c => ((ibragimov.detail.sortChars s).count c, c)).foldl
      (fun t p => ibragimov.detail.mmInsert p t) [])
    = (((ibragimov.detail.uniqueCopy (ibragimov.detail.sortChars s')).map
      fun c => ((ibragimov.detail.sortChars s').count c, c)).foldl
      (fun t p => ibragimov.detail.mmInsert p t) [])
  rw [ibragimov.detail.sortChars_eq_of_perm h]

namespace ibragimov.detail

theorem replaceGo_of_not_mem (c : Char) (code : List Char) :
    ∀ s : List Char, c ∉ s → replaceGo c code s = Except.ok s := by
  intro s
  induction s with
  | nil => intro _; rfl
  | cons x rest ih =>
    intro h
    have hx : ¬x = c := fun he => h (he ▸ List.mem_cons_self x rest)
    have hr : c ∉ rest := fun hm => h (List.mem_cons_of_mem x hm)
    rw [replaceGo, if_neg hx, ih hr]
    rfl

theorem replaceSubstring_of_not_mem (s : List Char) (c : Char) (code : List Char)
    (hs : s ≠ []) (hc : code ≠ []) (h : c ∉ s) :
    replaceSubstring s c code = Except.ok s := by
  rw [replaceSubstring, if_neg (by simp [hs, hc]), replaceGo_of_not_mem c code s h]

end ibragimov.detail

/-- Claim C4, amended: decode never reports an error; processing the bit
sequence splits it into a consumed part, after which the accumulator is
empty, and an unmatched remainder which is silently dropped: the decoded
output of the full sequence equals that of the consumed part alone. -/
theorem claimC4_amended_decode_silently_drops_remainder
    (encodings : List (Char × List Char)) (bits : List Char) :
    ∃ k, k ≤ bits.length ∧
      ibragimov.decode bits encodings = ibragimov.decode (bits.take k) encodings ∧
      (ibragimov.decodeGo (ibragimov.buildDecodingMap encodings) [] [] (bits.take k)).2 = [] ∧
      (ibragimov.decodeGo (ibragimov.buildDecodingMap encodings) [] [] bits).2 = bits.drop k := by
  rcases ibragimov.decodeGo_tail_split (ibragimov.buildDecodingMap encodings) bits []
    with ⟨k, hk, h1, h2, h3⟩ | ⟨h1, h2⟩
  · exact ⟨k, hk, h1, h2, h3⟩
  · refine ⟨0, Nat.zero_le _, ?_, rfl, ?_⟩
    · show _ = ibragimov.decode [] encodings
      rw [ibragimov.decode, h1]
      rfl
    · rw [h2]
      rfl

/-- Claim C7, amended: encode performs no symbol-membership check; for a
non-empty text none of whose symbols occurs as a key of the table (with all
replacement codes non-empty, so no guard fires), encode returns the text
unchanged rather than failing with an UnknownSymbol error. -/
theorem claimC7_amended_unknown_symbols_pass_through
    (text : List Char) (table : List (Char × List Char))
    (htext : text ≠ [])
    (htable : ∀ p ∈ table, p.2 ≠ [] ∧ p.1 ∉ text) :
    ibragimov.encode text table = Except.ok text := by
  induction table with
  | nil => rfl
  | cons p rest ih =>
    have hp := htable p (List.mem_cons_self p rest)
    have hrs : ∀ q ∈ rest, q.2 ≠ [] ∧ q.1 ∉ text :=
      fun q hq => htable q (List.mem_cons_of_mem p hq)
    have hrepl : ibragimov.detail.replaceSubstring text p.1 p.2 = Except.ok text :=
      ibragimov.detail.replaceSubstring_of_not_mem text p.1 p.2 htext hp.1 hp.2
    show List.foldlM _ text (p :: rest) = _
    rw [List.foldlM_cons, hrepl]
    exact ih hrs

/-- Claim C7, amended, witness: encode leaves the text "b" unchanged under
the table {a ↦ "0"}, which does not mention 'b'. -/
theorem claimC7_amended_witness :
    (['b'] : List Char) ≠ [] ∧
    (∀ p ∈ [('a', ['0'])], p.2 ≠ ([] : List Char) ∧ p.1 ∉ (['b'] : List Char)) ∧
    ibragimov.encode ['b'] [('a', ['0'])] = Except.ok ['b'] :=
  ⟨by decide, by decide,
    claimC7_amended_unknown_symbols_pass_through ['b'] [('a', ['0'])]
      (by decide) (by decide)⟩

namespace ibragimov.detail

theorem mmInsert_perm (p : Nat × Char) (l : List (Nat × Char)) :
    (mmInsert p l).Perm (p :: l) := by
  induction l with
  | nil => exact List.Perm.refl _
  | cons q rest ih =>
    rw [mmInsert]
    by_cases h : q.1 ≤ p.1
    · rw [if_pos h]
      exact (ih.cons q).trans (List.Perm.swap p q rest)
    · rw [if_neg h]

theorem foldl_mmInsert_perm :
    ∀ (l acc : List (Nat × Char)),
      (l.foldl (fun t p => mmInsert p t) acc).Perm (acc ++ l) := by
  intro l
  induction l with
  | nil => intro acc; simp
  | cons p rest ih =>
    intro acc
    rw [List.foldl_cons]
    refine (ih (mmInsert p acc)).trans ?_
    refine (List.Perm.append_right rest (mmInsert_perm p acc)).trans ?_
    exact List.perm_middle.symm

theorem sum_map_add_split (f g : Char → Nat) :
    ∀ d : List Char, (d.map fun c => f c + g c).sum = (d.map f).sum + (d.map g).sum := by
  intro d
  induction d with
  | nil => rfl
  | cons c d ih => simp only [List.map_cons, List.sum_cons, ih]; omega

theorem sum_map_indicator_eq_zero (x : Char) :
    ∀ d : List Char, x ∉ d → (d.map fun c => if x = c then 1 else 0).sum = 0 := by
  intro d
  induction d with
  | nil => intro _; rfl
  | cons c d ih =>
    intro h
    have hxc : ¬x = c := fun he => h (he ▸ List.mem_cons_self c d)
    have hxd : x ∉ d := fun hm => h (List.mem_cons_of_mem c hm)
    simp only [List.map_cons, List.sum_cons, if_neg hxc, ih hxd]

theorem sum_map_indicator_eq_one (x : Char) :
    ∀ d : List Char, d.Nodup → x ∈ d → (d.map fun c => if x = c then 1 else 0).sum = 1 := by
  intro d
  induction d with
  | nil => intro _ h; simp at h
  | cons c d ih =>
    intro hnd hm
    rw [List.nodup_cons] at hnd
    by_cases hxc : x = c
    · have hxd : x ∉ d := hxc ▸ hnd.1
      simp only [List.map_cons, List.sum_cons, if_pos hxc, sum_map_indicator_eq_zero x d hxd]
    · have hxd : x ∈ d := by
        rcases List.mem_cons.mp hm with h | h
        · exact absurd h hxc
        · exact h
      simp only [List.map_cons, List.sum_cons, if_neg hxc, ih hnd.2 hxd]

theorem sum_counts (d : List Char) (hd : d.Nodup) :
    ∀ l : List Char, (∀ x ∈ l, x ∈ d) → (d.map fun c => l.count c).sum = l.length := by
  intro l
  induction l with
  | nil =>
    intro _
    simp [List.count_nil]
  | cons x l ih =>
    intro hcover
    have hx : x ∈ d := hcover x (List.mem_cons_self x l)
    have hl : ∀ y ∈ l, y ∈ d := fun y hy => hcover y (List.mem_cons_of_mem x hy)
    have hcc : ∀ c : Char, (x :: l).count c = l.count c + (if x = c then 1 else 0) := by
      intro c
      rw [List.count_cons]
      by_cases hxc : x = c
      · simp [hxc]
      · simp [hxc]
    calc (d.map fun c => (x :: l).count c).sum
        = (d.map fun c => l.count c + (if x = c then 1 else 0)).sum := by
          congr 1
          exact List.map_congr_left fun c _ => hcc c
      _ = (d.map fun c => l.count c).sum + (d.map fun c => if x = c then 1 else 0).sum :=
          sum_map_add_split _ _ d
      _ = l.length + 1 := by rw [ih hl, sum_map_indicator_eq_one x d hd hx]
      _ = (x :: l).length := by simp

theorem ucGo_subset (x : Char) :
    ∀ (rest : List Char) (prev : Char), x ∈ ucGo prev rest → x ∈ rest := by
  intro rest
  induction rest with
  | nil => intro prev h; simp [ucGo] at h
  | cons c r ih =>
    intro prev h
    rw [ucGo] at h
    by_cases hc : c = prev
    · rw [if_pos hc] at h
      exact List.mem_cons_of_mem c (ih prev h)
    · rw [if_neg hc] at h
      rcases List.mem_cons.mp h with h | h
      · exact h ▸ List.mem_cons_self c r
      · exact List.mem_cons_of_mem c (ih c h)

theorem mem_ucGo (x : Char) :
    ∀ (rest : List Char) (prev : Char), x ∈ rest → x = prev ∨ x ∈ ucGo prev rest := by
  intro rest
  induction rest with
  | nil => intro prev h; simp at h
  | cons c r ih =>
    intro prev h
    rw [ucGo]
    by_cases hc : c = prev
    · rw [if_pos hc]
      rcases List.mem_cons.mp h with h | h
      · left; rw [h, hc]
      · exact ih prev h
    · rw [if_neg hc]
      rcases List.mem_cons.mp h with h | h
      · right; rw [h]; exact List.mem_cons_self c _
      · rcases ih c h with h' | h'
        · right; rw [h']; exact List.mem_cons_self c _
        · right; exact List.mem_cons_of_mem c h'

theorem mem_uniqueCopy (x : Char) (l : List Char) (h : x ∈ l) : x ∈ uniqueCopy l := by
  cases l with
  | nil => simp at h
  | cons c rest =>
    rw [uniqueCopy]
    rcases List.mem_cons.mp h with h | h
    · exact h ▸ List.mem_cons_self c _
    · rcases mem_ucGo x rest c h with h' | h'
      · exact h' ▸ List.mem_cons_self c _
      · exact List.mem_cons_of_mem c h'

theorem ucGo_pairwise_lt :
    ∀ (rest : List Char) (prev : Char), List.Pairwise (· ≤ ·) (prev :: rest) →
      List.Pairwise (· < ·) (prev :: ucGo prev rest) := by
  intro rest
  induction rest with
  | nil => intro prev _; simp [ucGo]
  | cons c r ih =>
    intro prev h
    rw [List.pairwise_cons] at h
    rw [ucGo]
    by_cases hc : c = prev
    · rw [if_pos hc]
      apply ih prev
      rw [List.pairwise_cons]
      exact ⟨fun y hy => h.1 y (List.mem_cons_of_mem c hy), (List.pairwise_cons.mp h.2).2⟩
    · rw [if_neg hc]
      have hcr : List.Pairwise (· < ·) (c :: ucGo c r) := ih c h.2
      have hpc : prev < c :=
        lt_of_le_of_ne (h.1 c (List.mem_cons_self c r)) (fun he => hc he.symm)
      rw [List.pairwise_cons]
      refine ⟨?_, hcr⟩
      intro y hy
      rcases List.mem_cons.mp hy with hy | hy
      · rw [hy]; exact hpc
      · exact hpc.trans ((List.pairwise_cons.mp hcr).1 y hy)

theorem uniqueCopy_nodup (l : List Char) (h : List.Sorted (· ≤ ·) l) :
    (uniqueCopy l).Nodup := by
  cases l with
  | nil => simp [uniqueCopy]
  | cons c rest =>
    rw [uniqueCopy]
    exact (ucGo_pairwise_lt rest c h).imp ne_of_lt

theorem createFrequencyTable_perm (text : List Char) :
    (createFrequencyTable text).Perm
      ((uniqueCopy (sortChars text)).map fun c => ((sortChars text).count c, c)) := by
  have h := foldl_mmInsert_perm
    ((uniqueCopy (sortChars text)).map fun c => ((sortChars text).count c, c)) []
  simpa using h

theorem createFrequencyTable_weight_sum (text : List Char) :
    ((createFrequencyTable text).map fun p => p.1).sum = text.length := by
  have hperm := (createFrequencyTable_perm text).map (fun p : Nat × Char => p.1)
  rw [hperm.sum_eq]
  rw [List.map_map]
  have hsorted := sortChars_sorted text
  have hnodup := uniqueCopy_nodup (sortChars text) hsorted
  have hcover : ∀ x ∈ sortChars text, x ∈ uniqueCopy (sortChars text) :=
    fun x hx => mem_uniqueCopy x (sortChars text) hx
  have := sum_counts (uniqueCopy (sortChars text)) hnodup (sortChars text) hcover
  calc ((uniqueCopy (sortChars text)).map
          ((fun p : Nat × Char => p.1) ∘ fun c => ((sortChars text).count c, c))).sum
      = ((uniqueCopy (sortChars text)).map fun c => (sortChars text).count c).sum := rfl
    _ = (sortChars text).length := this
    _ = text.length := (sortChars_perm text).length_eq

theorem createFrequencyTable_ne_nil (text : List Char) (h : text ≠ []) :
    createFrequencyTable text ≠ [] := by
  intro hnil
  have hperm := createFrequencyTable_perm text
  rw [hnil] at hperm
  have hlen := hperm.length_eq
  simp only [List.length_nil, List.length_map] at hlen
  have hst : sortChars text ≠ [] := by
    intro hst
    have := (sortChars_perm text).length_eq
    rw [hst] at this
    simp only [List.length_nil] at this
    exact h (List.length_eq_zero.mp this.symm)
  cases hsc : sortChars text with
  | nil => exact hst hsc
  | cons c rest =>
    rw [hsc] at hlen
    simp [uniqueCopy] at hlen

end ibragimov.detail

/-- Claim C10: for a non-empty text, the weights of the frequency table sum
to the length of the text; the Huffman tree root returned by
createHuffmanTree has consistent weights (every internal node's weight is
the sum of its children's) and its weight equals the length of the text. -/
theorem claimC10_weight_invariants (text : List Char) (htext : text ≠ [])
    (root : Node)
    (hroot : ibragimov.detail.createHuffmanTree
      (ibragimov.detail.createFrequencyTable text) = some root) :
    ((ibragimov.detail.createFrequencyTable text).map fun p => p.1).sum = text.length ∧
    root.consistentWeights ∧
    root.weight = text.length := by
  have hsum := ibragimov.detail.createFrequencyTable_weight_sum text
  refine ⟨hsum, ?_⟩
  set ft := ibragimov.detail.createFrequencyTable text with hft
  have hftne : ft ≠ [] := ibragimov.detail.createFrequencyTable_ne_nil text htext
  set leaves := ft.map fun p => Node.leaf p.2 p.1 with hleaves
  have hlne : leaves ≠ [] := by
    intro hx
    rw [hleaves] at hx
    exact hftne (List.map_eq_nil_iff.mp hx)
  have hlen : leaves.length ≤ ft.length + 1 := by
    rw [hleaves, List.length_map]
    omega
  obtain ⟨q1, q2, q3⟩ := ibragimov.detail.huffLoop_spec ft.length leaves hlne hlen
  have hcons0 : ∀ n ∈ leaves, n.consistentWeights := by
    intro n hn
    rw [hleaves] at hn
    obtain ⟨p, _, hp⟩ := List.mem_map.mp hn
    rw [← hp]
    trivial
  obtain ⟨x, hx⟩ := List.length_eq_one.mp q1
  have hgl : ibragimov.detail.createHuffmanTree ft = some x := by
    rw [ibragimov.detail.createHuffmanTree, ← hleaves, hx]
    rfl
  have hxr : x = root := by
    rw [hgl] at hroot
    exact Option.some.inj hroot
  have hxw : ibragimov.totalWeight leaves = text.length := by
    rw [hleaves, ibragimov.totalWeight, List.map_map]
    calc (ft.map (Node.weight ∘ fun p => Node.leaf p.2 p.1)).sum
        = (ft.map fun p => p.1).sum := rfl
      _ = text.length := hsum
  constructor
  · have := q3 hcons0 x (by rw [hx]; exact List.mem_cons_self x [])
    rw [← hxr]
    exact this
  · have : ibragimov.totalWeight (ibragimov.detail.huffLoop ft.length leaves)
        = text.length := by rw [q2, hxw]
    rw [hx] at this
    rw [← hxr]
    simp only [ibragimov.totalWeight, List.map_cons, List.map_nil, List.sum_cons,
      List.sum_nil] at this
    omega

/-- Claim C10, witness: for the text "ab" the frequency table is
[(1,'a'), (1,'b')], the returned root is the internal node merging the two
leaves (the later-positioned leaf 'b' extracted first, becoming the left
child), its weights are consistent, and its weight is 2. -/
theorem claimC10_witness :
    (['a', 'b'] : List Char) ≠ [] ∧
    ibragimov.detail.createHuffmanTree
      (ibragimov.detail.createFrequencyTable ['a', 'b'])
      = some (Node.internal ' ' 2 (Node.leaf 'b' 1) (Node.leaf 'a' 1)) ∧
    (((ibragimov.detail.createFrequencyTable ['a', 'b']).map fun p => p.1).sum
        = (['a', 'b'] : List Char).length ∧
      (Node.internal ' ' 2 (Node.leaf 'b' 1) (Node.leaf 'a' 1)).consistentWeights ∧
      (Node.internal ' ' 2 (Node.leaf 'b' 1) (Node.leaf 'a' 1)).weight
        = (['a', 'b'] : List Char).length) :=
  ⟨by decide, by rfl,
    claimC10_weight_invariants ['a', 'b'] (by decide) _ (by rfl)⟩

namespace ibragimov.detail

theorem minIdxGo_decomp :
    ∀ (rest pre1 pre2 : List Node) (bn : Node),
      (∀ x ∈ pre1, bn.weight ≤ x.weight) →
      (∀ x ∈ pre2, bn.weight < x.weight) →
      ∃ (q1 q2 : List Node) (m : Node),
        pre1 ++ bn :: pre2 ++ rest = q1 ++ m :: q2 ∧
        minIdxGo pre1.length bn (pre1.length + 1 + pre2.length) rest = q1.length ∧
        (∀ x ∈ q1, m.weight ≤ x.weight) ∧
        (∀ x ∈ q2, m.weight < x.weight) := by
  intro rest
  induction rest with
  | nil =>
    intro pre1 pre2 bn h1 h2
    exact ⟨pre1, pre2, bn, by simp, rfl, h1, h2⟩
  | cons n rest ih =>
    intro pre1 pre2 bn h1 h2
    by_cases hc : isMinWeight n bn = true
    · have hnw : n.weight ≤ bn.weight := by simpa [isMinWeight] using hc
      have h1' : ∀ x ∈ pre1 ++ bn :: pre2, n.weight ≤ x.weight := by
        intro x hx
        rcases List.mem_append.mp hx with hx | hx
        · exact hnw.trans (h1 x hx)
        · rcases List.mem_cons.mp hx with hx | hx
          · rw [hx]; exact hnw
          · exact hnw.trans (le_of_lt (h2 x hx))
      obtain ⟨q1, q2, m, heq, hidx, hq1, hq2⟩ :=
        ih (pre1 ++ bn :: pre2) [] n h1' (by simp)
      refine ⟨q1, q2, m, ?_, ?_, hq1, hq2⟩
      · calc pre1 ++ bn :: pre2 ++ n :: rest
            = (pre1 ++ bn :: pre2) ++ n :: [] ++ rest := by simp
          _ = q1 ++ m :: q2 := heq
      · rw [minIdxGo, if_pos hc]
        have e1 : (pre1 ++ bn :: pre2).length = pre1.length + 1 + pre2.length := by
          simp only [List.length_append, List.length_cons]
          omega
        rw [e1] at hidx
        have e2 : pre1.length + 1 + pre2.length + 1 + List.length ([] : List Node)
            = pre1.length + 1 + pre2.length + 1 := by simp
        rw [e2] at hidx
        exact hidx
    · have hnw : bn.weight < n.weight := by
        have : ¬ n.weight ≤ bn.weight := by simpa [isMinWeight] using hc
        omega
      have h2' : ∀ x ∈ pre2 ++ [n], bn.weight < x.weight := by
        intro x hx
        rcases List.mem_append.mp hx with hx | hx
        · exact h2 x hx
        · rw [List.mem_singleton.mp hx]; exact hnw
      obtain ⟨q1, q2, m, heq, hidx, hq1, hq2⟩ := ih pre1 (pre2 ++ [n]) bn h1 h2'
      refine ⟨q1, q2, m, ?_, ?_, hq1, hq2⟩
      · calc pre1 ++ bn :: pre2 ++ n :: rest
            = pre1 ++ bn :: (pre2 ++ [n]) ++ rest := by simp
          _ = q1 ++ m :: q2 := heq
      · rw [minIdxGo, if_neg hc]
        have e1 : pre1.length + 1 + (pre2 ++ [n]).length
            = pre1.length + 1 + pre2.length + 1 := by
          simp only [List.length_append, List.length_singleton]
          omega
        rw [e1] at hidx
        exact hidx

theorem get?_append_cons_length (q1 q2 : List Node) (m : Node) :
    (q1 ++ m :: q2).get? q1.length = some m := by
  induction q1 with
  | nil => rfl
  | cons x q1 ih => simpa using ih

theorem eraseIdx_append_cons_length (q1 q2 : List Node) (m : Node) :
    (q1 ++ m :: q2).eraseIdx q1.length = q1 ++ q2 := by
  induction q1 with
  | nil => rfl
  | cons x q1 ih =>
    simp only [List.cons_append, List.length_cons, List.eraseIdx_cons_succ]
    rw [ih]

theorem extractMinimum_spec (l : List Node) (hne : l ≠ []) :
    ∃ (q1 q2 : List Node) (m : Node),
      l = q1 ++ m :: q2 ∧
      extractMinimum l = (some m, q1 ++ q2) ∧
      (∀ x ∈ l, m.weight ≤ x.weight) ∧
      (∀ x ∈ q2, m.weight < x.weight) := by
  cases l with
  | nil => exact absurd rfl hne
  | cons c rest =>
    obtain ⟨q1, q2, m, heq, hidx, hq1, hq2⟩ :=
      minIdxGo_decomp rest [] [] c (by simp) (by simp)
    simp only [List.nil_append, List.length_nil, List.singleton_append] at heq hidx
    have hidx' : minIdxGo 0 c 1 rest = q1.length := by
      have e : (0 : Nat) + 1 + 0 = 1 := by omega
      rw [e] at hidx
      exact hidx
    have hmi : minIdx (c :: rest) = some q1.length := by
      rw [minIdx, hidx']
    refine ⟨q1, q2, m, heq, ?_, ?_, hq2⟩
    · simp only [extractMinimum, hmi]
      rw [heq, get?_append_cons_length, eraseIdx_append_cons_length]
    · intro x hx
      rw [heq] at hx
      rcases List.mem_append.mp hx with hx | hx
      · exact hq1 x hx
      · rcases List.mem_cons.mp hx with hx | hx
        · rw [hx]
        · exact le_of_lt (hq2 x hx)

end ibragimov.detail

/-- Claim C6, amended: in each iteration of the merge loop, each of the two
extractions removes and returns a node of minimum weight among the
currently remaining nodes — but among ties it selects the LATEST-positioned
node in the working collection (every node after the selected one is
strictly heavier), not the earliest; the first extracted node becomes the
left child and the second the right child of the new internal node appended
at the end of the collection. -/
theorem claimC6_amended (ws : List Node) (h : 1 < ws.length) :
    ∃ (q1 q2 : List Node) (left : Node) (r1 r2 : List Node) (right : Node),
      ws = q1 ++ left :: q2 ∧
      ibragimov.detail.extractMinimum ws = (some left, q1 ++ q2) ∧
      (∀ x ∈ ws, left.weight ≤ x.weight) ∧
      (∀ x ∈ q2, left.weight < x.weight) ∧
      q1 ++ q2 = r1 ++ right :: r2 ∧
      ibragimov.detail.extractMinimum (q1 ++ q2) = (some right, r1 ++ r2) ∧
      (∀ x ∈ q1 ++ q2, right.weight ≤ x.weight) ∧
      (∀ x ∈ r2, right.weight < x.weight) ∧
      ∀ fuel, ibragimov.detail.huffLoop (fuel + 1) ws
        = ibragimov.detail.huffLoop fuel
            ((r1 ++ r2) ++ [Node.internal ' ' (left.weight + right.weight) left right]) := by
  have hne : ws ≠ [] := by intro hx; rw [hx] at h; simp at h
  obtain ⟨q1, q2, left, heq1, he1, hmin1, hstrict1⟩ :=
    ibragimov.detail.extractMinimum_spec ws hne
  have hne2 : q1 ++ q2 ≠ [] := by
    intro hx
    have : ws.length = (q1 ++ q2).length + 1 := by
      rw [heq1]
      simp only [List.length_append, List.length_cons]
      omega
    rw [hx] at this
    simp at this
    omega
  obtain ⟨r1, r2, right, heq2, he2, hmin2, hstrict2⟩ :=
    ibragimov.detail.extractMinimum_spec (q1 ++ q2) hne2
  refine ⟨q1, q2, left, r1, r2, right, heq1, he1, hmin1, hstrict1, heq2, he2, hmin2,
    hstrict2, ?_⟩
  intro fuel
  simp only [ibragimov.detail.huffLoop, if_pos h, he1, he2]

/-- Claim C6, amended, witness: the two-node collection [leaf a 1, leaf b 1]
has more than one node, and the amended description holds of it (the
extraction picks leaf 'b', the later of the tied nodes). -/
theorem claimC6_amended_witness :
    1 < ([Node.leaf 'a' 1, Node.leaf 'b' 1] : List Node).length ∧
    (∃ (q1 q2 : List Node) (left : Node) (r1 r2 : List Node) (right : Node),
      ([Node.leaf 'a' 1, Node.leaf 'b' 1] : List Node) = q1 ++ left :: q2 ∧
      ibragimov.detail.extractMinimum [Node.leaf 'a' 1, Node.leaf 'b' 1]
        = (some left, q1 ++ q2) ∧
      (∀ x ∈ ([Node.leaf 'a' 1, Node.leaf 'b' 1] : List Node), left.weight ≤ x.weight) ∧
      (∀ x ∈ q2, left.weight < x.weight) ∧
      q1 ++ q2 = r1 ++ right :: r2 ∧
      ibragimov.detail.extractMinimum (q1 ++ q2) = (some right, r1 ++ r2) ∧
      (∀ x ∈ q1 ++ q2, right.weight ≤ x.weight) ∧
      (∀ x ∈ r2, right.weight < x.weight) ∧
      ∀ fuel, ibragimov.detail.huffLoop (fuel + 1) [Node.leaf 'a' 1, Node.leaf 'b' 1]
        = ibragimov.detail.huffLoop fuel
            ((r1 ++ r2) ++ [Node.internal ' ' (left.weight + right.weight) left right])) :=
  ⟨by decide, claimC6_amended [Node.leaf 'a' 1, Node.leaf 'b' 1] (by decide)⟩

/-- Claim C9, witness: the permuted texts "ab" and "ba" give the same
frequency table. -/
theorem claimC9_witness :
    (['a', 'b'] : List Char).Perm ['b', 'a'] ∧
    ibragimov.detail.createFrequencyTable ['a', 'b']
      = ibragimov.detail.createFrequencyTable ['b', 'a'] :=
  ⟨by decide, claimC9_frequency_table_permutation_invariant _ _ (by decide)⟩

/-- Claim C1: the round-trip decode(encode(s, T), T) = s for T =
createEncodingTable(s) fails on the single-symbol input "a": the table
assigns 'a' the empty codeword, and encode then throws
std::invalid_argument from replaceSubstring (empty replacement), so the
round trip never produces "a". -/
theorem claimC1_roundtrip_fails_at_single_symbol :
    ibragimov.createEncodingTable ['a'] = some [('a', [])] ∧
    ibragimov.encode ['a'] [('a', [])] = Except.error EncodeError.invalidArgument :=
  ⟨rfl, rfl⟩

/-- Claim C2: on the empty input, createEncodingTable does not raise an
explicit EmptyInput error; createHuffmanTree calls weights.back() on an
empty std::list — undefined behaviour, modelled as `none`. -/
theorem claimC2_empty_input_is_undefined_behaviour :
    ibragimov.createEncodingTable [] = none :=
  rfl

/-- Claim C3: for the one-symbol input "aaaa" the table assigns 'a' the
empty codeword (length 0, not the claimed 1 bit), and encode with that
table throws std::invalid_argument instead of round-tripping. -/
theorem claimC3_single_symbol_gets_empty_codeword :
    ibragimov.createEncodingTable ['a', 'a', 'a', 'a'] = some [('a', [])] ∧
    ibragimov.encode ['a', 'a', 'a', 'a'] [('a', [])]
      = Except.error EncodeError.invalidArgument :=
  ⟨rfl, rfl⟩

/-- Claim C4, counterexample: decoding the bit string "0" against the table
{a ↦ "00"} ends with the non-empty unmatched buffer "0", yet decode returns
the (empty) symbol sequence with the remainder silently dropped; the
function, like the source's std::string return value, has no error
channel at all, so no TruncatedStream error is reported. -/
theorem claimC4_counterexample :
    ibragimov.decode ['0'] [('a', ['0', '0'])] = [] ∧
    (ibragimov.decodeGo (ibragimov.buildDecodingMap [('a', ['0', '0'])]) [] [] ['0']).2
      = ['0'] :=
  ⟨rfl, rfl⟩

/-- Claim C6, counterexample: with two nodes tied at weight 1,
extractMinimum removes and returns the later node (leaf 'b'), not the
earliest-positioned one (leaf 'a') as the claim states. -/
theorem claimC6_counterexample :
    ibragimov.detail.extractMinimum [Node.leaf 'a' 1, Node.leaf 'b' 1]
      = (some (Node.leaf 'b' 1), [Node.leaf 'a' 1]) ∧
    Node.leaf 'b' 1 ≠ Node.leaf 'a' 1 :=
  ⟨rfl, by decide⟩

/-- Claim C7, counterexample: the text "b" contains a symbol absent from
the table {a ↦ "0"}, yet encode succeeds and returns "b" with the unknown
symbol left verbatim — no UnknownSymbol error. -/
theorem claimC7_counterexample :
    ibragimov.encode ['b'] [('a', ['0'])] = Except.ok ['b'] :=
  rfl

/-- Claim C8, counterexample: encode applied to the empty symbol sequence
with the non-empty table {a ↦ "0"} throws std::invalid_argument (the
replaceSubstring guard rejects an empty subject string) instead of
returning the empty bit sequence. -/
theorem claimC8_counterexample :
    ibragimov.encode [] [('a', ['0'])] = Except.error EncodeError.invalidArgument :=
  rfl

/-- Claim C8, amended: encode on empty input returns the empty bit sequence
only when the table is itself empty; with any non-empty table it throws
std::invalid_argument.  decode on the empty bit sequence returns the empty
symbol sequence for every table, without error. -/
theorem claimC8_amended :
    ibragimov.encode [] [] = Except.ok [] ∧
    (∀ (p : Char × List Char) (rest : List (Char × List Char)),
      ibragimov.encode [] (p :: rest) = Except.error EncodeError.invalidArgument) ∧
    (∀ encodings : List (Char × List Char), ibragimov.decode [] encodings = []) :=
  ⟨rfl, fun _ _ => rfl, fun _ => rfl⟩

namespace ibragimov

theorem val_foldl_init (b : List Char) :
    ∀ x : Nat, b.foldl (fun a c => 2 * a + (if c = '1' then 1 else 0)) x
      = x * 2 ^ b.length + val b := by
  induction b with
  | nil => intro x; simp [val]
  | cons c r ih =>
    intro x
    have hv : val (c :: r)
        = (2 * 0 + (if c = '1' then 1 else 0)) * 2 ^ r.length + val r := by
      rw [val, List.foldl_cons]
      exact ih _
    rw [List.foldl_cons, ih _, List.length_cons, hv]
    ring

theorem val_append (a b : List Char) :
    val (a ++ b) = val a * 2 ^ b.length + val b := by
  rw [val, List.foldl_append]
  exact val_foldl_init b (val a)

theorem val_cons (c : Char) (r : List Char) :
    val (c :: r) = (if c = '1' then 1 else 0) * 2 ^ r.length + val r := by
  have hv : val (c :: r)
      = (2 * 0 + (if c = '1' then 1 else 0)) * 2 ^ r.length + val r := by
    rw [val, List.foldl_cons]
    exact val_foldl_init r _
  rw [hv]
  ring

theorem val_replicate (n : Nat) : val (List.replicate n '0') = 0 := by
  induction n with
  | zero => rfl
  | succ n ih =>
    rw [List.replicate_succ, val_cons, if_neg (by decide : ¬ ('0' : Char) = '1'), ih]
    omega

theorem isBits_replicate (n : Nat) : IsBits (List.replicate n '0') :=
  fun c hc => Or.inl (List.eq_of_mem_replicate hc)

theorem isBits_append_iff (a b : List Char) :
    IsBits (a ++ b) ↔ IsBits a ∧ IsBits b := by
  constructor
  · intro h
    exact ⟨fun c hc => h c (List.mem_append.mpr (Or.inl hc)),
      fun c hc => h c (List.mem_append.mpr (Or.inr hc))⟩
  · intro ⟨ha, hb⟩ c hc
    rcases List.mem_append.mp hc with hc | hc
    · exact ha c hc
    · exact hb c hc

theorem val_lt_of_isBits : ∀ l : List Char, IsBits l → val l < 2 ^ l.length := by
  intro l
  induction l with
  | nil => intro _; simp [val]
  | cons c r ih =>
    intro h
    have hr : IsBits r := fun x hx => h x (List.mem_cons_of_mem c hx)
    have hvr := ih hr
    have hA : (if c = '1' then 1 else 0) ≤ 1 := by
      by_cases hc : c = '1'
      · rw [if_pos hc]
      · rw [if_neg hc]; omega
    have hAP : (if c = '1' then 1 else 0) * 2 ^ r.length ≤ 2 ^ r.length := by
      calc (if c = '1' then 1 else 0) * 2 ^ r.length
          ≤ 1 * 2 ^ r.length := Nat.mul_le_mul_right _ hA
        _ = 2 ^ r.length := Nat.one_mul _
    rw [val_cons, List.length_cons, pow_succ]
    omega

theorem eq_of_val_eq : ∀ (a b : List Char), IsBits a → IsBits b → a.length = b.length →
    val a = val b → a = b := by
  intro a
  induction a with
  | nil =>
    intro b _ _ hlen _
    have : b.length = 0 := by simpa using hlen.symm
    exact (List.length_eq_zero.mp this).symm
  | cons c r ih =>
    intro b ha hb hlen hv
    cases b with
    | nil => simp at hlen
    | cons d t =>
      have hr : IsBits r := fun x hx => ha x (List.mem_cons_of_mem c hx)
      have ht : IsBits t := fun x hx => hb x (List.mem_cons_of_mem d hx)
      have hlrt : r.length = t.length := by simpa using hlen
      have hvr := val_lt_of_isBits r hr
      have hvt := val_lt_of_isBits t ht
      rw [val_cons, val_cons, ← hlrt] at hv
      rw [← hlrt] at hvt
      have hcd : c = d ∧ val r = val t := by
        rcases ha c (List.mem_cons_self c r) with hc | hc <;>
          rcases hb d (List.mem_cons_self d t) with hd | hd
        · rw [hc, hd, if_neg (by decide : ¬ ('0' : Char) = '1')] at hv
          exact ⟨by rw [hc, hd], by omega⟩
        · rw [hc, hd, if_neg (by decide : ¬ ('0' : Char) = '1'),
            if_pos (by decide : ('1' : Char) = '1')] at hv
          exfalso
          omega
        · rw [hc, hd, if_pos (by decide : ('1' : Char) = '1'),
            if_neg (by decide : ¬ ('0' : Char) = '1')] at hv
          exfalso
          omega
        · rw [hc, hd, if_pos (by decide : ('1' : Char) = '1')] at hv
          exact ⟨by rw [hc, hd], by omega⟩
      rw [hcd.1, ih t hr ht hlrt hcd.2]

end ibragimov

namespace ibragimov

theorem val_singleton (x : Char) : val [x] = (if x = '1' then 1 else 0) := by
  rw [val_cons]
  simp [val]

theorem val_reverse_cons (x : Char) (xs : List Char) :
    val ((x :: xs).reverse) = 2 * val xs.reverse + (if x = '1' then 1 else 0) := by
  rw [List.reverse_cons, val_append, val_singleton]
  simp only [List.length_singleton, pow_one]
  omega

theorem isBits_reverse_iff (l : List Char) : IsBits l.reverse ↔ IsBits l := by
  constructor
  · intro h c hc
    exact h c (List.mem_reverse.mpr hc)
  · intro h c hc
    exact h c (List.mem_reverse.mp hc)

end ibragimov

namespace ibragimov.detail

theorem flip_bit (c : Char) : flip c = '0' ∨ flip c = '1' := by
  rw [flip]
  by_cases hc : c = '0'
  · rw [if_pos hc]; right; rfl
  · rw [if_neg hc]; left; rfl

theorem incRev_length : ∀ l : List Char, (incRev l).length = l.length := by
  intro l
  induction l with
  | nil => rfl
  | cons c r ih =>
    rw [incRev]
    by_cases hc : c = '0'
    · rw [if_pos hc]
      simp only [List.length_cons]
    · rw [if_neg hc]
      simp only [List.length_cons, ih]

theorem isBits_incRev : ∀ l : List Char, ibragimov.IsBits l → ibragimov.IsBits (incRev l) := by
  intro l
  induction l with
  | nil => intro h; exact h
  | cons c r ih =>
    intro h
    have hr : ibragimov.IsBits r := fun x hx => h x (List.mem_cons_of_mem c hx)
    rw [incRev]
    by_cases hc : c = '0'
    · rw [if_pos hc]
      intro x hx
      rcases List.mem_cons.mp hx with hx | hx
      · rw [hx]; exact flip_bit c
      · exact hr x hx
    · rw [if_neg hc]
      intro x hx
      rcases List.mem_cons.mp hx with hx | hx
      · rw [hx]; exact flip_bit c
      · exact ih hr x hx

theorem incRev_val : ∀ l : List Char, ibragimov.IsBits l →
    ibragimov.val l.reverse + 1 < 2 ^ l.length →
    ibragimov.val (incRev l).reverse = ibragimov.val l.reverse + 1 := by
  intro l
  induction l with
  | nil =>
    intro _ h2
    simp only [List.reverse_nil, List.length_nil, pow_zero] at h2
    simp only [ibragimov.val, List.foldl_nil] at h2
    omega
  | cons c r ih =>
    intro h1 h2
    have hr : ibragimov.IsBits r := fun x hx => h1 x (List.mem_cons_of_mem c hx)
    rcases h1 c (List.mem_cons_self c r) with hc | hc
    · rw [hc]
      rw [incRev, if_pos rfl, flip, if_pos rfl]
      rw [ibragimov.val_reverse_cons, ibragimov.val_reverse_cons]
      rw [if_pos rfl, if_neg (by decide : ¬ ('0' : Char) = '1')]
    · rw [hc] at h2 ⊢
      rw [incRev, if_neg (by decide : ¬ ('1' : Char) = '0'), flip,
        if_neg (by decide : ¬ ('1' : Char) = '0')]
      rw [ibragimov.val_reverse_cons, if_neg (by decide : ¬ ('0' : Char) = '1')]
      rw [ibragimov.val_reverse_cons, if_pos rfl] at h2
      rw [List.length_cons, pow_succ] at h2
      have hih : ibragimov.val (incRev r).reverse = ibragimov.val r.reverse + 1 :=
        ih hr (by omega)
      rw [hih, ibragimov.val_reverse_cons, if_pos rfl]
      omega

theorem increment_spec (code : List Char) (h : ibragimov.IsBits code)
    (hlt : ibragimov.val code + 1 < 2 ^ code.length) :
    ibragimov.val (increment code) = ibragimov.val code + 1 ∧
    (increment code).length = code.length ∧
    ibragimov.IsBits (increment code) := by
  have hrb : ibragimov.IsBits code.reverse := (ibragimov.isBits_reverse_iff code).mpr h
  have hrlt : ibragimov.val code.reverse.reverse + 1 < 2 ^ code.reverse.length := by
    rw [List.reverse_reverse, List.length_reverse]
    exact hlt
  have hval := incRev_val code.reverse hrb hrlt
  rw [List.reverse_reverse] at hval
  refine ⟨?_, ?_, ?_⟩
  · rw [increment]
    exact hval
  · rw [increment, List.length_reverse, incRev_length, List.length_reverse]
  · rw [increment]
    exact (ibragimov.isBits_reverse_iff _).mpr (isBits_incRev code.reverse hrb)

end ibragimov.detail

namespace ibragimov

theorem kraftSum_nonneg (lens : List Nat) : 0 ≤ kraftSum lens := by
  rw [kraftSum]
  apply List.sum_nonneg
  intro x hx
  obtain ⟨n, _, hn⟩ := List.mem_map.mp hx
  rw [← hn]
  positivity

theorem kraftSum_cons (n : Nat) (lens : List Nat) :
    kraftSum (n :: lens) = (1 / 2 : ℚ) ^ n + kraftSum lens := by
  rw [kraftSum, kraftSum, List.map_cons, List.sum_cons]

theorem kraftSum_append (a b : List Nat) :
    kraftSum (a ++ b) = kraftSum a + kraftSum b := by
  rw [kraftSum, kraftSum, kraftSum, List.map_append, List.sum_append]

theorem kraftSum_leafDepthsD (t : Node) :
    ∀ d : Nat, kraftSum ((leafDepthsD t d).map fun p => p.1) = (1 / 2 : ℚ) ^ d := by
  induction t with
  | leaf c w =>
    intro d
    rw [leafDepthsD]
    simp [kraftSum]
  | internal c w l r ihl ihr =>
    intro d
    rw [leafDepthsD, List.map_append, kraftSum_append]
    rw [show ((leafDepthsD l (d + 1)).map fun p => p.1) = ((leafDepthsD l (d + 1)).map fun p => p.1) from rfl]
    rw [ihl (d + 1), ihr (d + 1), pow_succ]
    ring

theorem kraftSum_perm {a b : List Nat} (h : a.Perm b) : kraftSum a = kraftSum b := by
  rw [kraftSum, kraftSum]
  exact (h.map _).sum_eq

end ibragimov

namespace ibragimov.detail

theorem perm_shuffle {α : Type} (A B C : List α) : (A ++ (B ++ C)).Perm (B ++ (A ++ C)) := by
  have h1 : A ++ (B ++ C) = (A ++ B) ++ C := (List.append_assoc A B C).symm
  have h2 : ((A ++ B) ++ C).Perm ((B ++ A) ++ C) :=
    List.Perm.append_right C List.perm_append_comm
  have h3 : (B ++ A) ++ C = B ++ (A ++ C) := List.append_assoc B A C
  rw [h1, ← h3]
  exact h2

theorem bfs_records_children_perm :
    ∀ (q : List Node) (h : Nat),
      ((q.filterMap fun t => if t.isLeaf then some (h, t.symbol) else none)
        ++ ((q.flatMap Node.childrenOf).flatMap fun n => ibragimov.leafDepthsD n (h + 1))).Perm
      (q.flatMap fun n => ibragimov.leafDepthsD n h) := by
  intro q
  induction q with
  | nil => intro h; simp
  | cons n q ih =>
    intro h
    cases n with
    | leaf c w =>
      simp only [List.filterMap_cons, Node.isLeaf, if_pos rfl, List.flatMap_cons,
        Node.childrenOf, List.nil_append, ibragimov.leafDepthsD, Node.symbol]
      exact ((ih h).cons (h, c)).trans (List.Perm.refl _)
    | internal c w l r =>
      simp only [List.filterMap_cons, List.flatMap_cons, Node.childrenOf,
        ibragimov.leafDepthsD, Node.isLeaf, List.cons_append, List.nil_append,
        List.append_assoc, if_neg (by simp : ¬ (false = true))]
      refine ((perm_shuffle _ _ _).trans ?_)
      refine (List.Perm.append_left _ (perm_shuffle _ _ _)).trans ?_
      exact List.Perm.append_left _ (List.Perm.append_left _ (ih h))

namespace ibragimov.detail

theorem bfs_perm :
    ∀ (fuel : Nat) (q : List Node), (q.map Node.size).sum ≤ fuel →
      ∀ h : Nat, (bfs fuel q h).Perm (q.flatMap fun n => ibragimov.leafDepthsD n h) := by
  intro fuel
  induction fuel with
  | zero =>
    intro q hq h
    cases q with
    | nil => simp [bfs]
    | cons n q =>
      exfalso
      have hs : 1 ≤ n.size := by
        cases n with
        | leaf c w => simp [Node.size]
        | internal c w l r => rw [Node.size]; omega
      simp only [List.map_cons, List.sum_cons] at hq
      omega
  | succ fuel ih =>
    intro q hq h
    cases q with
    | nil => simp [bfs]
    | cons n q =>
      rw [bfs]
      have hchild : (((n :: q).flatMap Node.childrenOf).map Node.size).sum ≤ fuel := by
        have := flatMap_children_size (n :: q)
        simp only [List.length_cons] at this
        omega
      have hih := ih ((n :: q).flatMap Node.childrenOf) hchild (h + 1)
      refine (List.Perm.append_left _ hih).trans ?_
      exact bfs_records_children_perm (n :: q) h

theorem mmInsert_mem {x p : Nat × Char} :
    ∀ l : List (Nat × Char), x ∈ mmInsert p l → x = p ∨ x ∈ l := by
  intro l
  induction l with
  | nil =>
    intro hx
    rcases List.mem_singleton.mp hx with hx
    exact Or.inl hx
  | cons q rest ih =>
    intro hx
    rw [mmInsert] at hx
    by_cases hq : q.1 ≤ p.1
    · rw [if_pos hq] at hx
      rcases List.mem_cons.mp hx with hx | hx
      · exact Or.inr (hx ▸ List.mem_cons_self q rest)
      · rcases ih hx with hx | hx
        · exact Or.inl hx
        · exact Or.inr (List.mem_cons_of_mem q hx)
    · rw [if_neg hq] at hx
      rcases List.mem_cons.mp hx with hx | hx
      · exact Or.inl hx
      · exact Or.inr hx

theorem mmInsert_sorted (p : Nat × Char) :
    ∀ l : List (Nat × Char), List.Pairwise (fun a b : Nat × Char => a.1 ≤ b.1) l →
      List.Pairwise (fun a b : Nat × Char => a.1 ≤ b.1) (mmInsert p l) := by
  intro l
  induction l with
  | nil => intro _; simp [mmInsert]
  | cons q rest ih =>
    intro hl
    rw [List.pairwise_cons] at hl
    rw [mmInsert]
    by_cases hq : q.1 ≤ p.1
    · rw [if_pos hq, List.pairwise_cons]
      refine ⟨?_, ih hl.2⟩
      intro b hb
      rcases mmInsert_mem rest hb with hb | hb
      · rw [hb]; exact hq
      · exact hl.1 b hb
    · rw [if_neg hq, List.pairwise_cons]
      have hpq : p.1 ≤ q.1 := by omega
      refine ⟨?_, by rw [List.pairwise_cons]; exact hl⟩
      intro b hb
      rcases List.mem_cons.mp hb with hb | hb
      · rw [hb]; exact hpq
      · exact hpq.trans (hl.1 b hb)

theorem foldl_mmInsert_sorted :
    ∀ (l acc : List (Nat × Char)),
      List.Pairwise (fun a b : Nat × Char => a.1 ≤ b.1) acc →
      List.Pairwise (fun a b : Nat × Char => a.1 ≤ b.1)
        (l.foldl (fun t p => mmInsert p t) acc) := by
  intro l
  induction l with
  | nil => intro acc h; exact h
  | cons p rest ih =>
    intro acc h
    rw [List.foldl_cons]
    exact ih (mmInsert p acc) (mmInsert_sorted p acc h)

theorem createCodesLengthTable_sorted (t : Node) :
    List.Pairwise (fun a b : Nat × Char => a.1 ≤ b.1) (createCodesLengthTable t) := by
  rw [createCodesLengthTable]
  exact foldl_mmInsert_sorted _ [] (by simp)

theorem createCodesLengthTable_kraft (t : Node) :
    ibragimov.kraftSum ((createCodesLengthTable t).map fun p => p.1) = 1 := by
  have hperm1 : (createCodesLengthTable t).Perm (bfs t.size [t] 0) := by
    rw [createCodesLengthTable]
    have := foldl_mmInsert_perm (bfs t.size [t] 0) []
    simpa using this
  have hperm2 : (bfs t.size [t] 0).Perm ([t].flatMap fun n => ibragimov.leafDepthsD n 0) :=
    bfs_perm t.size [t] (by simp) 0
  have hperm3 : (createCodesLengthTable t).Perm (ibragimov.leafDepthsD t 0) := by
    refine (hperm1.trans hperm2).trans ?_
    simp
  have := ibragimov.kraftSum_perm ((hperm3.map (fun p : Nat × Char => p.1)))
  rw [this, ibragimov.kraftSum_leafDepthsD t 0, pow_zero]

end ibragimov.detail

namespace ibragimov

theorem isPre_length {a b : List Char} (h : isPre a b) : a.length ≤ b.length := by
  obtain ⟨t, ht⟩ := h
  rw [← ht, List.length_append]
  omega

theorem isPre_eq_of_length {a b : List Char} (h : isPre a b) (hl : b.length ≤ a.length) :
    a = b := by
  obtain ⟨t, ht⟩ := h
  have hlen : a.length + t.length = b.length := by
    rw [← ht, List.length_append]
  have ht0 : t = [] := List.length_eq_zero.mp (by omega)
  rw [← ht, ht0, List.append_nil]

theorem not_isPre_of_dom {w K : List Char} (hw : IsBits w) (hK : IsBits K)
    (hlen : w.length ≤ K.length)
    (hdom : (val w + 1) * 2 ^ (K.length - w.length) ≤ val K) :
    ¬ isPre w K ∧ ¬ isPre K w ∧ w ≠ K := by
  have hne : w ≠ K := by
    intro he
    rw [he] at hdom
    simp only [Nat.sub_self, pow_zero, mul_one] at hdom
    omega
  refine ⟨?_, ?_, hne⟩
  · intro hpre
    obtain ⟨t, ht⟩ := hpre
    have htb : IsBits t := ((isBits_append_iff w t).mp (ht ▸ hK)).2
    have hvt := val_lt_of_isBits t htb
    have hva : val K = val w * 2 ^ t.length + val t := by
      rw [← ht, val_append]
    have hexp : K.length - w.length = t.length := by
      have : w.length + t.length = K.length := by rw [← ht, List.length_append]
      omega
    rw [hexp] at hdom
    have hmul : (val w + 1) * 2 ^ t.length = val w * 2 ^ t.length + 2 ^ t.length := by
      ring
    omega
  · intro hpre
    have hlK := isPre_length hpre
    have heq : K = w := isPre_eq_of_length hpre hlen
    rw [heq] at hdom
    simp only [Nat.sub_self, pow_zero, mul_one] at hdom
    omega

end ibragimov

namespace ibragimov.detail

theorem mapInsert_mem {x : Char × List Char} (c : Char) (v : List Char) :
    ∀ l : List (Char × List Char), x ∈ mapInsert c v l → x = (c, v) ∨ x ∈ l := by
  intro l
  induction l with
  | nil =>
    intro hx
    exact Or.inl (List.mem_singleton.mp hx)
  | cons p rest ih =>
    intro hx
    rw [mapInsert] at hx
    by_cases h1 : p.1 < c
    · rw [if_pos h1] at hx
      rcases List.mem_cons.mp hx with hx | hx
      · exact Or.inr (hx ▸ List.mem_cons_self p rest)
      · rcases ih hx with hx | hx
        · exact Or.inl hx
        · exact Or.inr (List.mem_cons_of_mem p hx)
    · rw [if_neg h1] at hx
      by_cases h2 : p.1 = c
      · rw [if_pos h2] at hx
        rcases List.mem_cons.mp hx with hx | hx
        · exact Or.inl hx
        · exact Or.inr (List.mem_cons_of_mem p hx)
      · rw [if_neg h2] at hx
        rcases List.mem_cons.mp hx with hx | hx
        · exact Or.inl hx
        · exact Or.inr hx

theorem mapInsert_pairwise {R : Char × List Char → Char × List Char → Prop}
    (hR : ∀ p q, R p q → R q p) (c : Char) (v : List Char) :
    ∀ l : List (Char × List Char), l.Pairwise R → (∀ q ∈ l, R (c, v) q) →
      (mapInsert c v l).Pairwise R := by
  intro l
  induction l with
  | nil => intro _ _; simp [mapInsert]
  | cons p rest ih =>
    intro hl hcv
    rw [List.pairwise_cons] at hl
    rw [mapInsert]
    by_cases h1 : p.1 < c
    · rw [if_pos h1, List.pairwise_cons]
      refine ⟨?_, ih hl.2 (fun q hq => hcv q (List.mem_cons_of_mem p hq))⟩
      intro q hq
      rcases mapInsert_mem c v rest hq with hq | hq
      · rw [hq]
        exact hR _ _ (hcv p (List.mem_cons_self p rest))
      · exact hl.1 q hq
    · rw [if_neg h1]
      by_cases h2 : p.1 = c
      · rw [if_pos h2, List.pairwise_cons]
        exact ⟨fun q hq => hcv q (List.mem_cons_of_mem p hq), hl.2⟩
      · rw [if_neg h2, List.pairwise_cons]
        refine ⟨?_, by rw [List.pairwise_cons]; exact hl⟩
        intro q hq
        exact hcv q hq

end ibragimov.detail

namespace ibragimov.detail

theorem dom_to_new {w K : List Char} {len : Nat}
    (hwK : w.length ≤ K.length) (hKlen : K.length ≤ len)
    (hdom : w = K ∨ (ibragimov.val w + 1) * 2 ^ (K.length - w.length) ≤ ibragimov.val K) :
    (ibragimov.val w + 1) * 2 ^ (len - w.length)
      ≤ (ibragimov.val K + 1) * 2 ^ (len - K.length) := by
  rcases hdom with h | h
  · rw [h]
  · have hexp : len - w.length = (K.length - w.length) + (len - K.length) := by omega
    rw [hexp, pow_add, ← mul_assoc]
    calc (ibragimov.val w + 1) * 2 ^ (K.length - w.length) * 2 ^ (len - K.length)
        ≤ ibragimov.val K * 2 ^ (len - K.length) := Nat.mul_le_mul_right _ h
      _ ≤ (ibragimov.val K + 1) * 2 ^ (len - K.length) := Nat.mul_le_mul_right _ (by omega)

theorem cetGo_invariant :
    ∀ (rem : List (Nat × Char)) (K : List Char) (table : List (Char × List Char)),
      ibragimov.IsBits K →
      List.Pairwise (fun a b : Nat × Char => a.1 ≤ b.1) rem →
      (∀ p ∈ rem, K.length ≤ p.1) →
      ((ibragimov.val K : ℚ) + 1) * (1 / 2) ^ K.length
          + ibragimov.kraftSum (rem.map fun p => p.1) ≤ 1 →
      (∀ p ∈ table, ibragimov.IsBits p.2 ∧ p.2.length ≤ K.length ∧
        (p.2 = K ∨ (ibragimov.val p.2 + 1) * 2 ^ (K.length - p.2.length) ≤ ibragimov.val K)) →
      List.Pairwise (fun p q : Char × List Char =>
        p.2 ≠ q.2 ∧ ¬ ibragimov.isPre p.2 q.2 ∧ ¬ ibragimov.isPre q.2 p.2) table →
      List.Pairwise (fun p q : Char × List Char =>
        p.2 ≠ q.2 ∧ ¬ ibragimov.isPre p.2 q.2 ∧ ¬ ibragimov.isPre q.2 p.2)
        (cetGo table K K.length rem) := by
  intro rem
  induction rem with
  | nil =>
    intro K table _ _ _ _ _ hpw
    rw [cetGo]
    exact hpw
  | cons p rest ih =>
    intro K table hKbits hsorted hbound hbudget htable hpw
    obtain ⟨len, ch⟩ := p
    have h0 : K.length ≤ len := hbound (len, ch) (List.mem_cons_self _ rest)
    rw [List.pairwise_cons] at hsorted
    have hheadle : ∀ q ∈ rest, len ≤ q.1 := hsorted.1
    have hsorted' := hsorted.2
    rw [List.map_cons, ibragimov.kraftSum_cons] at hbudget
    have hknn := ibragimov.kraftSum_nonneg (rest.map fun p : Nat × Char => p.1)
    have hhalf_pos : (0 : ℚ) < (1 / 2) ^ len := by positivity
    have hq1 : ((ibragimov.val K : ℚ) + 1) * (1 / 2) ^ K.length < 1 := by linarith
    have h2L : ((1 / 2 : ℚ)) ^ K.length * 2 ^ K.length = 1 := by
      rw [← mul_pow]
      norm_num
    have hq2 : ((ibragimov.val K : ℚ) + 1) < 2 ^ K.length := by
      have hstep := mul_lt_mul_of_pos_right hq1 (by positivity : (0 : ℚ) < 2 ^ K.length)
      rw [one_mul, mul_assoc, h2L, mul_one] at hstep
      exact hstep
    have hwrap : ibragimov.val K + 1 < 2 ^ K.length := by
      have hcast : ((ibragimov.val K + 1 : Nat) : ℚ) < ((2 ^ K.length : Nat) : ℚ) := by
        push_cast
        linarith
      exact_mod_cast hcast
    obtain ⟨hincval, hinclen, hincbits⟩ := increment_spec K hKbits hwrap
    set code' := increment K ++ List.replicate (len - K.length) '0' with hcode'
    have hlen' : code'.length = len := by
      rw [hcode', List.length_append, hinclen, List.length_replicate]
      omega
    have hbits' : ibragimov.IsBits code' :=
      (ibragimov.isBits_append_iff _ _).mpr ⟨hincbits, ibragimov.isBits_replicate _⟩
    have hval' : ibragimov.val code' = (ibragimov.val K + 1) * 2 ^ (len - K.length) := by
      rw [hcode', ibragimov.val_append, hincval, ibragimov.val_replicate,
        List.length_replicate]
      omega
    have hiden : ((2 : ℚ)) ^ (len - K.length) * (1 / 2) ^ len = (1 / 2) ^ K.length := by
      have hs : (1 / 2 : ℚ) ^ len = (1 / 2) ^ (len - K.length) * (1 / 2) ^ K.length := by
        rw [← pow_add]
        congr 1
        omega
      rw [hs, ← mul_assoc, ← mul_pow]
      norm_num
    have hbq' : ((ibragimov.val code' : ℚ) + 1) * (1 / 2) ^ len
        + ibragimov.kraftSum (rest.map fun p : Nat × Char => p.1) ≤ 1 := by
      have hc : ((ibragimov.val code' : ℚ)) = ((ibragimov.val K : ℚ) + 1) * 2 ^ (len - K.length) := by
        rw [hval']
        push_cast
        ring
      rw [hc, add_mul, one_mul, mul_assoc, hiden]
      linarith
    have htable' : ∀ q ∈ mapInsert ch code' table, ibragimov.IsBits q.2 ∧
        q.2.length ≤ code'.length ∧
        (q.2 = code' ∨ (ibragimov.val q.2 + 1) * 2 ^ (code'.length - q.2.length)
          ≤ ibragimov.val code') := by
      intro q hq
      rcases mapInsert_mem ch code' table hq with hq | hq
      · rw [hq]
        exact ⟨hbits', le_refl _, Or.inl rfl⟩
      · obtain ⟨b1, b2, b3⟩ := htable q hq
        refine ⟨b1, ?_, Or.inr ?_⟩
        · rw [hlen']
          omega
        · rw [hlen', hval']
          exact dom_to_new b2 h0 b3
    have hcv : ∀ q ∈ table, code' ≠ q.2 ∧ ¬ ibragimov.isPre code' q.2 ∧
        ¬ ibragimov.isPre q.2 code' := by
      intro q hq
      obtain ⟨b1, b2, b3⟩ := htable q hq
      have hdq : (ibragimov.val q.2 + 1) * 2 ^ (code'.length - q.2.length)
          ≤ ibragimov.val code' := by
        rw [hlen', hval']
        exact dom_to_new b2 h0 b3
      have htriple := ibragimov.not_isPre_of_dom b1 hbits' (by rw [hlen']; omega) hdq
      exact ⟨Ne.symm htriple.2.2, htriple.2.1, htriple.1⟩
    have hpw' := mapInsert_pairwise (fun p q h => ⟨Ne.symm h.1, h.2.2, h.2.1⟩) ch code'
      table hpw hcv
    have hbound'' : ∀ q ∈ rest, code'.length ≤ q.1 := by
      intro q hq
      rw [hlen']
      exact hheadle q hq
    have hbq2 : ((ibragimov.val code' : ℚ) + 1) * (1 / 2) ^ code'.length
        + ibragimov.kraftSum (rest.map fun p : Nat × Char => p.1) ≤ 1 := by
      rw [hlen']
      exact hbq'
    have hrec := ih code' (mapInsert ch code' table) hbits' hsorted' hbound'' hbq2
      htable' hpw'
    rw [hlen'] at hrec
    rw [cetGo]
    exact hrec

end ibragimov.detail

namespace ibragimov.detail

theorem createEncodingTable_pairwise (lt : List (Nat × Char))
    (hsorted : List.Pairwise (fun a b : Nat × Char => a.1 ≤ b.1) lt)
    (hkraft : ibragimov.kraftSum (lt.map fun p => p.1) ≤ 1)
    (T : List (Char × List Char))
    (hT : createEncodingTable lt = some T) :
    List.Pairwise (fun p q : Char × List Char =>
      p.2 ≠ q.2 ∧ ¬ ibragimov.isPre p.2 q.2 ∧ ¬ ibragimov.isPre q.2 p.2) T := by
  cases lt with
  | nil => simp [createEncodingTable] at hT
  | cons p rest =>
    obtain ⟨l0, c0⟩ := p
    rw [createEncodingTable] at hT
    have hTeq : T = cetGo (mapInsert c0 (List.replicate l0 '0') [])
        (List.replicate l0 '0') l0 rest := (Option.some.inj hT).symm
    have hK0len : (List.replicate l0 '0').length = l0 := List.length_replicate l0 '0'
    rw [List.pairwise_cons] at hsorted
    have hinv := cetGo_invariant rest (List.replicate l0 '0')
      (mapInsert c0 (List.replicate l0 '0') [])
      (ibragimov.isBits_replicate l0)
      hsorted.2
      (by
        intro q hq
        rw [hK0len]
        exact hsorted.1 q hq)
      (by
        rw [hK0len, ibragimov.val_replicate]
        rw [List.map_cons, ibragimov.kraftSum_cons] at hkraft
        push_cast
        linarith)
      (by
        intro q hq
        have : q = (c0, List.replicate l0 '0') := List.mem_singleton.mp hq
        rw [this]
        exact ⟨ibragimov.isBits_replicate l0, le_refl _, Or.inl rfl⟩)
      (by
        show List.Pairwise _ [(c0, List.replicate l0 '0')]
        simp)
    rw [hK0len] at hinv
    rw [hTeq]
    exact hinv

end ibragimov.detail

/-- Claim C5: for every non-empty input text, any encoding table produced by
createEncodingTable is prefix-free: for every two entries with distinct
symbols, neither entry's codeword is a prefix of the other's.  (The canonical
increment-then-pad construction over the length-sorted multimap yields
strictly growing code values whose Kraft sum is bounded by the full binary
Huffman tree's, so no codeword can extend another.) -/
theorem claimC5_prefix_free (text : List Char) (htext : text ≠ [])
    (T : List (Char × List Char))
    (hT : ibragimov.createEncodingTable text = some T) :
    ∀ p ∈ T, ∀ q ∈ T, p.1 ≠ q.1 → ¬ ibragimov.isPre p.2 q.2 := by
  cases htree : ibragimov.detail.createHuffmanTree
      (ibragimov.detail.createFrequencyTable text) with
  | none =>
    rw [ibragimov.createEncodingTable, htree] at hT
    simp at hT
  | some tree =>
    rw [ibragimov.createEncodingTable, htree] at hT
    have hsorted := ibragimov.detail.createCodesLengthTable_sorted tree
    have hkraft : ibragimov.kraftSum
        ((ibragimov.detail.createCodesLengthTable tree).map fun p => p.1) ≤ 1 :=
      le_of_eq (ibragimov.detail.createCodesLengthTable_kraft tree)
    have hpw := ibragimov.detail.createEncodingTable_pairwise _ hsorted hkraft T hT
    intro p hp q hq hne
    have hne' : p ≠ q := fun he => hne (he ▸ rfl)
    have hsym : Symmetric (fun p q : Char × List Char =>
        p.2 ≠ q.2 ∧ ¬ ibragimov.isPre p.2 q.2 ∧ ¬ ibragimov.isPre q.2 p.2) :=
      fun a b h => ⟨Ne.symm h.1, h.2.2, h.2.1⟩
    exact (hpw.forall hsym hp hq hne').2.1

/-- Claim C5, witness: for the spec's concrete scenario text "aabbbcc" the
produced table is {a ↦ 11, b ↦ 0, c ↦ 10}, and the codeword of 'b' is not a
prefix of the codeword of 'a'. -/
theorem claimC5_witness :
    (['a', 'a', 'b', 'b', 'b', 'c', 'c'] : List Char) ≠ [] ∧
    ibragimov.createEncodingTable ['a', 'a', 'b', 'b', 'b', 'c', 'c']
      = some [('a', ['1', '1']), ('b', ['0']), ('c', ['1', '0'])] ∧
    ¬ ibragimov.isPre ['0'] ['1', '1'] :=
  ⟨by decide, by rfl,
    claimC5_prefix_free ['a', 'a', 'b', 'b', 'b', 'c', 'c'] (by decide)
      [('a', ['1', '1']), ('b', ['0']), ('c', ['1', '0'])] (by rfl)
      ('b', ['0']) (by decide) ('a', ['1', '1']) (by decide) (by decide)⟩
